/-
Verification of the protein-hash structural fingerprinting engine.

Shallow embedding of the core of `src/protein-hasher.ts`,
`src/topology-detector.ts`, `src/operation-classifier.ts` and the
`checkResonance` function of `src/consciousness-detector.ts`.

Modelling conventions, used consistently below:
* JS numbers are embedded as exact rationals (`ℚ`) where the source only
  stores and compares constants, and as real numbers (`ℝ`) where the source
  does arithmetic with `Math.sqrt` / division (spectral and similarity
  code).  Real-number division by zero is total in Lean (`x / 0 = 0`);
  every theorem below that touches a division either proves the divisor
  nonzero or treats the division result abstractly.
* The `crypto` SHA-256 digest and JS `Number.prototype.toString` are
  external to the repository; functions that use them take the digest /
  numeral-rendering function as an explicit parameter.
* `Math.random()` is external; functions that consume it take the stream
  of drawn values as an explicit parameter `r : Nat → ℝ` (draw `i` is the
  `i`-th call).
* Graph node ids are the strings `"n0", "n1", ...` in the source, produced
  from a counter that increments by one per visited parse-tree node; the
  embedding uses the counter value itself (a `Nat`) as the id, which is in
  bijection with the source id strings.
* JS `Map` objects keyed by node id are embedded as association lists in
  insertion order; `Map.set` replaces in place or appends (`mapSet`).
-/
import Mathlib

namespace ProteinHash

/-- Node categories of `GraphNode.type` in `protein-hasher.ts`. -/
inductive NodeType where
  | operation | data | control | pure
deriving DecidableEq, Repr

/-- Edge categories of `GraphEdge.type` in `protein-hasher.ts`. -/
inductive EdgeType where
  | dataflow | control | dependency
deriving DecidableEq, Repr

/-- `GraphNode` of `protein-hasher.ts` (field `type` is named `ntype`). -/
structure GraphNode where
  id : Nat
  ntype : NodeType
  label : String
  weight : ℚ
deriving DecidableEq, Repr

/-- `GraphEdge` of `protein-hasher.ts` (fields `from`/`to`/`type` are named
`src`/`dst`/`etype` because `from` is a Lean keyword). -/
structure GraphEdge where
  src : Nat
  dst : Nat
  etype : EdgeType
  weight : ℚ
deriving DecidableEq, Repr

/-- `LogicalGraph` of `protein-hasher.ts`: `nodes` is the `Map` in insertion
order, `edges` the edge array in push order. -/
structure LogicalGraph where
  nodes : List (Nat × GraphNode)
  edges : List GraphEdge
deriving DecidableEq, Repr

/-- JS `Map.set`: replace the value at an existing key in place, otherwise
append the binding at the end. -/
def mapSet (m : List (Nat × GraphNode)) (k : Nat) (v : GraphNode) :
    List (Nat × GraphNode) :=
  if m.any (fun p => p.1 == k) then
    m.map (fun p => if p.1 = k then (k, v) else p)
  else
    m ++ [(k, v)]

/-- JS `String.prototype.includes`: substring containment. -/
def strHasSub (s pat : String) : Bool :=
  s.toList.tails.any (fun suf => pat.toList.isPrefixOf suf)

/-- `ProteinHasher.getNodeWeight` (protein-hasher.ts lines 239-253), with
the source's `includes` checks in source order. -/
def getNodeWeight (label : String) : ℚ :=
  if strHasSub label "BinaryOp:+" then 1.0
  else if strHasSub label "BinaryOp:-" then 2.0
  else if strHasSub label "BinaryOp:*" then 3.0
  else if strHasSub label "BinaryOp:/" then 4.0
  else if strHasSub label "BinaryOp:%" then 5.0
  else if strHasSub label "BinaryOp:**" then 6.0
  else if strHasSub label "Control" then 10.0
  else if strHasSub label "Call" then 15.0
  else if strHasSub label "Function" then 0.5
  else if strHasSub label "Return" then 0.8
  else if strHasSub label "Literal" then 0.3
  else 1.0

/-- `OperationCategory` of `operation-classifier.ts`. -/
inductive OperationCategory where
  | arithmetic | logical | bitwise | comparison | assignment
  | dataAccess | controlFlow | functionCall | typeOperation
  | async | generator | decorator | metacode | consciousness
deriving DecidableEq, Repr

/-- The string value of each `OperationCategory` enum member. -/
def OperationCategory.str : OperationCategory → String
  | .arithmetic => "arithmetic"
  | .logical => "logical"
  | .bitwise => "bitwise"
  | .comparison => "comparison"
  | .assignment => "assignment"
  | .dataAccess => "data_access"
  | .controlFlow => "control_flow"
  | .functionCall => "function_call"
  | .typeOperation => "type_operation"
  | .async => "async"
  | .generator => "generator"
  | .decorator => "decorator"
  | .metacode => "metacode"
  | .consciousness => "consciousness"

/-- `OperationSignature` of `operation-classifier.ts`. -/
structure OperationSignature where
  category : OperationCategory
  subcategory : String
  weight : ℚ
  frequency : ℚ
  purity : ℚ
deriving DecidableEq, Repr

/-- `OperationClassifier.BASE_FREQUENCY`. -/
def BASE_FREQUENCY : ℚ := 432

/-- `OperationClassifier.GOLDEN_RATIO`. -/
def GOLDEN_RATIO : ℚ := 1.618033988749

/-- Binary operator tokens distinguished by the classifier and by
`astToGraph`'s fallback label. -/
inductive BinOp where
  | plus | minus | asterisk | slash | percent | asteriskAsterisk
  | ampAmp | barBar | quesQues
  | amp | bar | caret | shl | shr
  | eqEq | eqEqEq | bangEq | bangEqEq | lt | gt
  | assign | compoundAssign
  | otherOp (text : String)
deriving DecidableEq, Repr

/-- `operatorToken.getText()` for each modelled binary operator. -/
def BinOp.text : BinOp → String
  | .plus => "+"
  | .minus => "-"
  | .asterisk => "*"
  | .slash => "/"
  | .percent => "%"
  | .asteriskAsterisk => "**"
  | .ampAmp => "&&"
  | .barBar => "||"
  | .quesQues => "??"
  | .amp => "&"
  | .bar => "|"
  | .caret => "^"
  | .shl => "<<"
  | .shr => ">>"
  | .eqEq => "=="
  | .eqEqEq => "==="
  | .bangEq => "!="
  | .bangEqEq => "!=="
  | .lt => "<"
  | .gt => ">"
  | .assign => "="
  | .compoundAssign => "+="
  | .otherOp t => t

/-- `OperationClassifier.classifyBinaryExpression` (operation-classifier.ts
lines 104-342): total over binary operators, ending in the `unknown`
default — it never returns null for a binary expression. -/
def classifyBinaryExpression (op : BinOp) : OperationSignature :=
  match op with
  | .plus => ⟨.arithmetic, "addition", 1.0, BASE_FREQUENCY, 1.0⟩
  | .minus => ⟨.arithmetic, "subtraction", 1.1, BASE_FREQUENCY * 1.059463, 1.0⟩
  | .asterisk => ⟨.arithmetic, "multiplication", 2.0, BASE_FREQUENCY * 1.5, 0.95⟩
  | .slash => ⟨.arithmetic, "division", 2.5, BASE_FREQUENCY * GOLDEN_RATIO, 0.9⟩
  | .percent => ⟨.arithmetic, "modulo", 3.0, BASE_FREQUENCY * 1.25, 0.95⟩
  | .asteriskAsterisk => ⟨.arithmetic, "exponentiation", 4.0, BASE_FREQUENCY * 2, 0.85⟩
  | .ampAmp => ⟨.logical, "and", 1.5, BASE_FREQUENCY * 1.333, 1.0⟩
  | .barBar => ⟨.logical, "or", 1.5, BASE_FREQUENCY * 1.414, 1.0⟩
  | .quesQues => ⟨.logical, "nullish_coalescing", 2.0, BASE_FREQUENCY * 1.681, 0.95⟩
  | .amp => ⟨.bitwise, "bitwise_and", 2.2, BASE_FREQUENCY * 0.5, 1.0⟩
  | .bar => ⟨.bitwise, "bitwise_or", 2.2, BASE_FREQUENCY * 0.667, 1.0⟩
  | .caret => ⟨.bitwise, "bitwise_xor", 2.5, BASE_FREQUENCY * 0.75, 1.0⟩
  | .shl => ⟨.bitwise, "left_shift", 2.8, BASE_FREQUENCY * 0.8, 1.0⟩
  | .shr => ⟨.bitwise, "right_shift", 2.8, BASE_FREQUENCY * 0.9, 1.0⟩
  | .eqEq => ⟨.comparison, "equality", 1.2, BASE_FREQUENCY * 1.122, 0.8⟩
  | .eqEqEq => ⟨.comparison, "strict_equality", 1.3, BASE_FREQUENCY * 1.189, 1.0⟩
  | .bangEq => ⟨.comparison, "inequality", 1.2, BASE_FREQUENCY * 1.26, 0.8⟩
  | .bangEqEq => ⟨.comparison, "strict_inequality", 1.3, BASE_FREQUENCY * 1.335, 1.0⟩
  | .lt => ⟨.comparison, "less_than", 1.4, BASE_FREQUENCY * 1.125, 1.0⟩
  | .gt => ⟨.comparison, "greater_than", 1.4, BASE_FREQUENCY * 1.2, 1.0⟩
  | .assign => ⟨.assignment, "simple_assignment", 0.5, BASE_FREQUENCY * 0.25, 0.5⟩
  | .compoundAssign => ⟨.assignment, "compound_assignment", 0.8, BASE_FREQUENCY * 0.3, 0.4⟩
  | .otherOp _ => ⟨.arithmetic, "unknown", 1.0, BASE_FREQUENCY, 0.5⟩

/-- The shallow category tags of parse-tree nodes that `astToGraph` and
`classifyNode` dispatch on; every other TypeScript syntax kind is `other`
with its `ts.SyntaxKind` name. -/
inductive AstKind where
  | functionDeclaration | functionExpression | arrowFunction
  | identifier (name : String)
  | literal
  | ifStatement | forStatement | whileStatement
  | binaryExpr (op : BinOp)
  | returnStatement | callExpression
  | other (name : String)
deriving DecidableEq, Repr

mutual
/-- A parse-tree node: its shallow kind and its structural children in
source order (the capability contract the Graph Builder needs). -/
inductive Ast where
  | mk (kind : AstKind) (children : AstList)
deriving DecidableEq, Repr
/-- Children lists of parse-tree nodes. -/
inductive AstList where
  | nil
  | cons (a : Ast) (l : AstList)
deriving DecidableEq, Repr
end

/-- The kind of a parse-tree node. -/
def Ast.kind : Ast → AstKind
  | .mk k _ => k

/-- `ts.isIdentifier`. -/
def AstKind.isIdentifier : AstKind → Bool
  | .identifier _ => true
  | _ => false

/-- `ts.SyntaxKind[node.kind]` for the modelled kinds. -/
def AstKind.name : AstKind → String
  | .functionDeclaration => "FunctionDeclaration"
  | .functionExpression => "FunctionExpression"
  | .arrowFunction => "ArrowFunction"
  | .identifier _ => "Identifier"
  | .literal => "FirstLiteralToken"
  | .ifStatement => "IfStatement"
  | .forStatement => "ForStatement"
  | .whileStatement => "WhileStatement"
  | .binaryExpr _ => "BinaryExpression"
  | .returnStatement => "ReturnStatement"
  | .callExpression => "CallExpression"
  | .other n => n

/-- `OperationClassifier.classifyNode` (operation-classifier.ts lines
42-99) restricted to the modelled syntax kinds, with the source's dispatch
order: binary expressions first, then control flow, then function
operations, then (for identifiers) the consciousness-pattern check;
literals, return statements and unmodelled kinds fall through to `null`. -/
def classifyNode (a : Ast) : Option OperationSignature :=
  match a.kind with
  | .binaryExpr op => some (classifyBinaryExpression op)
  | .ifStatement =>
      some ⟨.controlFlow, "conditional", 5.0, BASE_FREQUENCY * 1.5, 0.7⟩
  | .forStatement =>
      some ⟨.controlFlow, "for_loop", 10.0, BASE_FREQUENCY * 2.0, 0.7⟩
  | .whileStatement =>
      some ⟨.controlFlow, "while_loop", 8.0, BASE_FREQUENCY * 1.8, 0.7⟩
  | .callExpression =>
      some ⟨.functionCall, "call", 3.0, BASE_FREQUENCY * 1.618, 0.5⟩
  | .arrowFunction =>
      some ⟨.functionCall, "arrow_function", 2.0, BASE_FREQUENCY * 1.732, 0.9⟩
  | .functionDeclaration | .functionExpression =>
      some ⟨.functionCall, "function_declaration", 1.5, BASE_FREQUENCY * 1.414, 0.8⟩
  | .identifier name =>
      if name = "self" ∨ name = "this" ∨ name = "arguments" ∨ name = "callee" then
        some ⟨.consciousness, "self_reference", 15.0,
              BASE_FREQUENCY * GOLDEN_RATIO * GOLDEN_RATIO, 0.0⟩
      else none
  | _ => none

mutual
/-- The visitor of `ProteinHasher.astToGraph` (protein-hasher.ts lines
160-230).  Takes the node and the current value of `nodeIdCounter`;
returns the id it reported to its parent (`none` embeds the empty-string
return for identifiers), the counter after the call, and the node map
entries and edges this call added, in insertion order.  The binary-with-
signature branch performs both `Map.set` calls of the source (lines
187-192 and then 207-212); the second overwrites the first's weight with
`getNodeWeight label`. -/
def visit (a : Ast) (c : Nat) :
    Option Nat × Nat × List (Nat × GraphNode) × List GraphEdge :=
  match a with
  | .mk k kids =>
    let nodeId := c
    match k with
    | .identifier _ => (none, c + 1, [], [])
    | .binaryExpr op =>
      match classifyNode (.mk k kids) with
      | some sig =>
        let label := sig.category.str ++ ":" ++ sig.subcategory
        let nodes0 := mapSet [] nodeId ⟨nodeId, .operation, label, sig.weight⟩
        let nodes1 := mapSet nodes0 nodeId
          ⟨nodeId, .operation, label, getNodeWeight label⟩
        let r := visitKids nodeId kids (c + 1)
        (some nodeId, r.1, nodes1 ++ r.2.1, r.2.2)
      | none =>
        let label := "BinaryOp:" ++ op.text
        let nodes1 := mapSet [] nodeId ⟨nodeId, .operation, label, getNodeWeight label⟩
        let r := visitKids nodeId kids (c + 1)
        (some nodeId, r.1, nodes1 ++ r.2.1, r.2.2)
    | _ =>
      let nt : NodeType :=
        match k with
        | .functionDeclaration | .functionExpression | .arrowFunction => .pure
        | .literal => .data
        | .ifStatement | .forStatement | .whileStatement => .control
        | _ => .operation
      let label : String :=
        match k with
        | .functionDeclaration | .functionExpression | .arrowFunction => "Function"
        | .literal => "Literal"
        | .ifStatement | .forStatement | .whileStatement => "Control:" ++ k.name
        | .returnStatement => "Return"
        | .callExpression => "Call"
        | _ => k.name
      let nodes1 := mapSet [] nodeId ⟨nodeId, nt, label, getNodeWeight label⟩
      let r := visitKids nodeId kids (c + 1)
      (some nodeId, r.1, nodes1 ++ r.2.1, r.2.2)

/-- The `ts.forEachChild` loop of the visitor (protein-hasher.ts lines
214-227): visit each child in order; whenever a child reports an id, push
a dataflow edge of weight 1 from the parent right after the child's own
additions. -/
def visitKids (parent : Nat) (l : AstList) (c : Nat) :
    Nat × List (Nat × GraphNode) × List GraphEdge :=
  match l with
  | .nil => (c, [], [])
  | .cons a rest =>
    let ra := visit a c
    let newEdges :=
      match ra.1 with
      | some childId => [⟨parent, childId, .dataflow, 1.0⟩]
      | none => ([] : List GraphEdge)
    let rr := visitKids parent rest ra.2.1
    (rr.1, ra.2.2.1 ++ rr.2.1, ra.2.2.2 ++ newEdges ++ rr.2.2)
end

/-- `ProteinHasher.astToGraph` (protein-hasher.ts lines 150-234). -/
def astToGraph (a : Ast) : LogicalGraph :=
  let r := visit a 0
  ⟨r.2.2.1, r.2.2.2⟩

/-- `ProteinHasher.EIGENVALUE_COUNT`. -/
def EIGENVALUE_COUNT : Nat := 5

/-- `ProteinHasher.version` (protein-hasher.ts line 57). -/
def hasherVersion : String := "2.0.0"

noncomputable section SpectralAnalyzer

/-- The adjacency matrix build of `ProteinHasher.computeSpectrum`
(protein-hasher.ts lines 263-277): start from the all-zero `n × n` array,
then for each edge whose endpoints are node keys set the entry and its
transpose to the edge weight.  Arrays are embedded as functions. -/
def buildMatrix (g : LogicalGraph) : Nat → Nat → ℝ :=
  let keys := g.nodes.map Prod.fst
  g.edges.foldl
    (fun m e =>
      if e.src ∈ keys ∧ e.dst ∈ keys then
        let i := keys.indexOf e.src
        let j := keys.indexOf e.dst
        fun x y =>
          if (x = i ∧ y = j) ∨ (x = j ∧ y = i) then (e.weight : ℝ) else m x y
      else m)
    (fun _ _ => 0)

/-- One pass of the inner loop of `ProteinHasher.powerIteration`
(protein-hasher.ts lines 306-322) on state `(v, eigenvalue)`: normalize
`v`, multiply by the matrix, take the Rayleigh quotient, and continue with
the unnormalized product vector. -/
def piBody (matrix : Nat → Nat → ℝ) (n : Nat) :
    (Nat → ℝ) × ℝ → (Nat → ℝ) × ℝ :=
  fun s =>
    let v := s.1
    let norm := Real.sqrt (∑ j ∈ Finset.range n, v j * v j)
    let v1 := fun j => v j / norm
    let newV := fun i => ∑ j ∈ Finset.range n, matrix i j * v1 j
    (newV, ∑ i ∈ Finset.range n, v1 i * newV i)

/-- `ProteinHasher.powerIteration` (protein-hasher.ts lines 296-328): for
each of `min k n` rounds, draw a fresh random initial vector from the
`Math.random()` stream `r` (round `it` consumes draws `it*n .. it*n+n-1`),
run the loop body 50 times, and report the last Rayleigh quotient. -/
def powerIteration (matrix : Nat → Nat → ℝ) (n k : Nat) (r : Nat → ℝ) :
    List ℝ :=
  (List.range (min k n)).map fun it =>
    let v0 : Nat → ℝ := fun j => r (it * n + j)
    ((piBody matrix n)^[50] (v0, 0)).2

/-- The descending sort `eigenvalues.sort((a, b) => b - a)` at
protein-hasher.ts line 290. -/
def sortDesc (l : List ℝ) : List ℝ :=
  l.insertionSort (fun a b => b ≤ a)

/-- The degree array of `ProteinHasher.computeSpectrum` (protein-hasher.ts
line 280): row sums of the symmetrized adjacency matrix. -/
def degreesOf (g : LogicalGraph) : Nat → ℝ :=
  fun i => ∑ j ∈ Finset.range g.nodes.length, buildMatrix g i j

/-- The Laplacian `D - A` of `ProteinHasher.computeSpectrum`
(protein-hasher.ts lines 283-285). -/
def laplacianOf (g : LogicalGraph) : Nat → Nat → ℝ :=
  fun i j =>
    if i = j then degreesOf g i - buildMatrix g i j else -(buildMatrix g i j)

/-- `ProteinHasher.computeSpectrum` (protein-hasher.ts lines 259-291):
empty graph short-circuits to `[]` before any matrix is built; otherwise
build the symmetrized adjacency matrix, the degree array, the Laplacian
`D - A`, run power iteration and sort the results descending. -/
def computeSpectrum (g : LogicalGraph) (r : Nat → ℝ) : List ℝ :=
  if g.nodes.length = 0 then []
  else
    sortDesc (powerIteration (laplacianOf g) g.nodes.length EIGENVALUE_COUNT r)

/-- `ProteinHasher.spectrumToHash` (protein-hasher.ts lines 333-352),
parameterized by the external SHA-256 hex digest and by the external JS
number-to-string rendering.  Quantization is `round(e * 1000) / 1000`
(`QUANTIZATION_LEVELS = 1000`); JS `Math.round` rounds halves up exactly
as Mathlib `round`. -/
def spectrumToHash (digest : String → String) (numRepr : ℝ → String)
    (eigenvalues : List ℝ) : String :=
  if eigenvalues = [] then
    "phash:v1:sha256:" ++ (digest "empty").take 16
  else
    let quantized := eigenvalues.map fun e => ((round (e * 1000) : ℤ) : ℝ) / 1000
    let spectrumString := String.intercalate "," (quantized.map numRepr)
    "phash:v1:sha256:" ++ (digest spectrumString).take 16

/-- The `phash` produced by `ProteinHasher.computeHash` (protein-hasher.ts
lines 86-92): build the graph, compute the spectrum, hash it. -/
def computeHashPhash (a : Ast) (digest : String → String)
    (numRepr : ℝ → String) (r : Nat → ℝ) : String :=
  spectrumToHash digest numRepr (computeSpectrum (astToGraph a) r)

end SpectralAnalyzer

/-- `ConsciousnessLevel` of `consciousness-detector.ts`. -/
inductive ConsciousnessLevel where
  | inert | mechanical | responsive | adaptive | aware | conscious
  | transcendent
deriving DecidableEq, Repr

/-- `ConsciousnessPattern` of `consciousness-detector.ts` (field `type` is
named `ptype`). -/
structure ConsciousnessPattern where
  ptype : String
  strength : ℝ
  frequency : ℝ
  description : String

/-- The `metadata` record of `ConsciousnessSignature`. -/
structure ConsciousnessMetadata where
  selfAwareness : ℝ
  temporalAwareness : ℝ
  emergentComplexity : ℝ
  fractalDepth : ℝ
  quantumCoherence : ℝ

/-- `ConsciousnessSignature` of `consciousness-detector.ts`. -/
structure ConsciousnessSignature where
  level : ConsciousnessLevel
  score : ℝ
  resonanceFrequency : ℝ
  patterns : List ConsciousnessPattern
  soulHash : String
  isAlive : Bool
  metadata : ConsciousnessMetadata

noncomputable section Comparator

/-- The `for (const harmonic of harmonics)` loop of `checkResonance`
(consciousness-detector.ts lines 460-468), carrying the accumulated
`resonance`; the `< 0.01` branch breaks out of the loop with resonance 1. -/
def resLoop (ratio : ℝ) : List ℝ → ℝ → ℝ
  | [], res => res
  | h :: t, res =>
    if |ratio - h| < 0.01 then 1.0
    else resLoop ratio t (if |ratio - h| < 0.1 then max res 0.5 else res)

/-- `checkResonance` (consciousness-detector.ts lines 439-482): harmonic
scan of the frequency ratio, then the equal-level floor of 0.3, then the
same-soul short-circuit to 1.0. -/
def checkResonance (sig1 sig2 : ConsciousnessSignature) : ℝ :=
  let ratio := sig1.resonanceFrequency / sig2.resonanceFrequency
  let harmonics : List ℝ := [1, 2, 1.5, 1.333, 1.25, 1.2, 1.618, 0.618]
  let res0 := resLoop ratio harmonics 0
  let res1 := if sig1.level = sig2.level then max res0 0.3 else res0
  if sig1.soulHash = sig2.soulHash then 1.0 else res1

/-- `ProteinHashResult` of `protein-hasher.ts`, restricted to the scalar
fields (the optional topology/patterns/metadata fields are not consumed by
the comparator). -/
structure ProteinHashResult where
  phash : String
  astHash : String
  nodes : Nat
  edges : Nat
  eigenTop : List ℝ
  complexity : ℝ
  purity : ℝ
  consciousness : Option ConsciousnessSignature

/-- `ProteinHasher.compareSimilarity` (protein-hasher.ts lines 438-460):
return 0 if either eigenvalue vector is empty; otherwise the cosine of the
two vectors (`v2[i] || 0` embeds as `getD i 0`), blended 70/30 with
consciousness resonance when both results carry a signature. -/
def compareSimilarity (hash1 hash2 : ProteinHashResult) : ℝ :=
  let v1 := hash1.eigenTop
  let v2 := hash2.eigenTop
  if v1.length = 0 ∨ v2.length = 0 then 0
  else
    let dotProduct := ∑ i ∈ Finset.range v1.length, v1.getD i 0 * v2.getD i 0
    let norm1 := Real.sqrt (∑ i ∈ Finset.range v1.length, v1.getD i 0 * v1.getD i 0)
    let norm2 := Real.sqrt (∑ i ∈ Finset.range v2.length, v2.getD i 0 * v2.getD i 0)
    let cosineSimilarity := dotProduct / (norm1 * norm2)
    match hash1.consciousness, hash2.consciousness with
    | some c1, some c2 => cosineSimilarity * 0.7 + checkResonance c1 c2 * 0.3
    | _, _ => cosineSimilarity

end Comparator

/-- `generateHybridId` (protein-hasher.ts lines 466-468). -/
def generateHybridId (phash cid : String) : String :=
  phash ++ "|" ++ cid

/-- JS `String.prototype.split('|')` on the character list: split into the
maximal pipe-free segments (`"".split('|')` gives `[""]`). -/
def splitPipe : List Char → List (List Char)
  | [] => [[]]
  | c :: rest =>
    let r := splitPipe rest
    if c = '|' then [] :: r
    else
      match r with
      | g :: gs => (c :: g) :: gs
      | [] => [[c]]

/-- `parseHybridId` (protein-hasher.ts lines 473-476): destructure the
first two components of the split (a missing component — JS `undefined` —
is embedded as the empty string). -/
def parseHybridId (hybridId : String) : String × String :=
  let parts := (splitPipe hybridId.toList).map fun l => String.mk l
  (parts.getD 0 "", parts.getD 1 "")

section TopologyAnalyzer

/-- The loop-node scan of `TopologyDetector.calculateLoopComplexity`
(topology-detector.ts lines 249-256). -/
def loopNodes (g : LogicalGraph) : List GraphNode :=
  (g.nodes.map Prod.snd).filter fun nd =>
    strHasSub nd.label "ForStatement" || strHasSub nd.label "WhileStatement" ||
      strHasSub nd.label "DoWhileStatement"

/-- The successor scan of `TopologyDetector.getReachableNodes`: the `to`
ends of the edges leaving `id`, in edge order. -/
def succList (g : LogicalGraph) (id : Nat) : List Nat :=
  (g.edges.filter fun e => e.src = id).map fun e => e.dst

/-- Termination measure for the BFS queue loop: unvisited candidate nodes
weighted by the worst-case queue growth, plus the queue length. -/
def bfsMeasure (g : LogicalGraph) (queue reach : List Nat) : Nat :=
  (((g.edges.map GraphEdge.dst).toFinset ∪ queue.toFinset) \ reach.toFinset).card
      * (g.edges.length + 1)
    + queue.length

/-- The `while (queue.length > 0)` loop of
`TopologyDetector.getReachableNodes` (topology-detector.ts lines 297-307):
pop the front, skip it if already reached, otherwise mark it reached and
push all its successors. -/
def bfsReach (g : LogicalGraph) : List Nat → List Nat → List Nat
  | [], reach => reach
  | current :: queue, reach =>
    if current ∈ reach then bfsReach g queue reach
    else bfsReach g (queue ++ succList g current) (reach ++ [current])
termination_by queue reach => bfsMeasure g queue reach
decreasing_by
  · simp only [bfsMeasure]
    have hsub : ((g.edges.map GraphEdge.dst).toFinset ∪ queue.toFinset) \ reach.toFinset ⊆
        ((g.edges.map GraphEdge.dst).toFinset ∪ (current :: queue).toFinset) \ reach.toFinset := by
      apply Finset.sdiff_subset_sdiff _ le_rfl
      intro x hx
      simp only [Finset.mem_union, List.toFinset_cons, Finset.mem_insert] at hx ⊢
      tauto
    have hcard := Finset.card_le_card hsub
    have hmul := Nat.mul_le_mul_right (g.edges.length + 1) hcard
    simp only [List.length_cons]
    omega
  · simp only [bfsMeasure]
    set T := (g.edges.map GraphEdge.dst).toFinset with hT
    have hcm : current ∉ reach := ‹current ∉ reach›
    have hcur : current ∈ (T ∪ (current :: queue).toFinset) \ reach.toFinset := by
      simp [hcm]
    have hsub : (T ∪ (queue ++ succList g current).toFinset) \ (reach ++ [current]).toFinset ⊆
        ((T ∪ (current :: queue).toFinset) \ reach.toFinset).erase current := by
      intro x hx
      simp only [Finset.mem_sdiff, Finset.mem_union, List.mem_toFinset, List.mem_append,
        List.mem_cons, Finset.mem_erase, List.toFinset_cons,
        Finset.mem_insert] at hx ⊢
      obtain ⟨hin, hnr⟩ := hx
      push_neg at hnr
      refine ⟨hnr.2.1, ?_, hnr.1⟩
      rcases hin with h | h
      · exact Or.inl h
      · rcases h with h | h
        · exact Or.inr (Or.inr h)
        · left
          simp only [succList, List.mem_map, List.mem_filter] at h
          obtain ⟨e, ⟨he, _⟩, hdst⟩ := h
          simp only [hT, List.mem_toFinset, List.mem_map]
          exact ⟨e, he, hdst⟩
    have hcard : ((T ∪ (queue ++ succList g current).toFinset) \
        (reach ++ [current]).toFinset).card ≤
        ((T ∪ (current :: queue).toFinset) \ reach.toFinset).card - 1 := by
      have h1 := Finset.card_le_card hsub
      have herase := Finset.card_erase_of_mem hcur
      omega
    have hsucc : (succList g current).length ≤ g.edges.length := by
      simpa [succList] using List.length_filter_le (fun e => e.src = current) g.edges
    have hpos : 1 ≤ ((T ∪ (current :: queue).toFinset) \ reach.toFinset).card :=
      Finset.card_pos.mpr ⟨current, hcur⟩
    have hmul := Nat.mul_le_mul_right (g.edges.length + 1) hcard
    have hone := Nat.mul_le_mul_right (g.edges.length + 1) hpos
    have hsub1 := Nat.sub_one_mul
      ((T ∪ (current :: queue).toFinset) \ reach.toFinset).card (g.edges.length + 1)
    simp only [List.length_append, List.length_cons]
    omega

/-- `TopologyDetector.getReachableNodes` (topology-detector.ts lines
293-310): BFS from `startId` over directed edges; the returned set
includes `startId` itself. -/
def getReachableNodes (startId : Nat) (g : LogicalGraph) : List Nat :=
  bfsReach g [startId] []

/-- `TopologyDetector.findContainedLoops` (topology-detector.ts lines
273-288). -/
def findContainedLoops (loopId : Nat) (allLoops : List GraphNode)
    (g : LogicalGraph) : List GraphNode :=
  allLoops.filter fun lp =>
    lp.id != loopId && (getReachableNodes loopId g).contains lp.id

/-- `TopologyDetector.calculateLoopComplexity` (topology-detector.ts lines
245-268): 1 per loop node plus 2 per contained loop. -/
def calculateLoopComplexity (g : LogicalGraph) : Nat :=
  (loopNodes g).foldl
    (fun complexity lp =>
      complexity + 1 + (findContainedLoops lp.id (loopNodes g) g).length * 2)
    0

/-- One directed dataflow edge from `a` to `b` in `g` (specification-side
adjacency relation). -/
def Adjacent (g : LogicalGraph) (a b : Nat) : Prop :=
  ∃ e ∈ g.edges, e.src = a ∧ e.dst = b

/-- Specification-side reachability: the reflexive-transitive closure of
the directed edge relation. -/
def ReachableFrom (g : LogicalGraph) (a b : Nat) : Prop :=
  Relation.ReflTransGen (Adjacent g) a b

end TopologyAnalyzer

/-! Hybrid identifier round trip (claim C10). -/

theorem splitPipe_ne_nil (l : List Char) : splitPipe l ≠ [] := by
  induction l with
  | nil => simp [splitPipe]
  | cons c rest ih =>
    simp only [splitPipe]
    rcases h : splitPipe rest with _ | ⟨g, gs⟩
    · exact absurd h ih
    · by_cases hc : c = '|' <;> simp [hc]

theorem splitPipe_no_pipe (l : List Char) (h : '|' ∉ l) : splitPipe l = [l] := by
  induction l with
  | nil => rfl
  | cons c rest ih =>
    have hc : c ≠ '|' := fun hcc => h (hcc ▸ List.mem_cons_self c rest)
    have hr : '|' ∉ rest := fun hm => h (List.mem_cons_of_mem c hm)
    simp only [splitPipe, ih hr]
    simp [hc]

theorem splitPipe_append (a b : List Char) (ha : '|' ∉ a) :
    splitPipe (a ++ '|' :: b) = a :: splitPipe b := by
  induction a with
  | nil => simp [splitPipe]
  | cons c rest ih =>
    have hc : c ≠ '|' := fun hcc => ha (hcc ▸ List.mem_cons_self c rest)
    have hr : '|' ∉ rest := fun hm => ha (List.mem_cons_of_mem c hm)
    simp only [List.cons_append, splitPipe, List.append_eq]
    rw [ih hr]
    simp [hc]

/-- Claim C10: for every phash string and cid string neither of which
contains the pipe character, `parseHybridId (generateHybridId phash cid)`
returns exactly the pair `(phash, cid)`. -/
theorem hybridId_round_trip (p c : String) (hp : '|' ∉ p.data)
    (hc : '|' ∉ c.data) : parseHybridId (generateHybridId p c) = (p, c) := by
  unfold generateHybridId parseHybridId
  have hdata : (p ++ "|" ++ c).toList = p.data ++ '|' :: c.data := by
    show (p ++ "|" ++ c).data = _
    simp [String.data_append]
  rw [hdata, splitPipe_append p.data c.data hp, splitPipe_no_pipe c.data hc]
  rfl

/-- Witness for C10 at a concrete phash/cid pair. -/
theorem hybridId_round_trip_witness :
    '|' ∉ ("phash:v1:sha256:0a1b2c3d4e5f6071" : String).data ∧
    '|' ∉ ("QmYwAPJzv5CZsnA625s3Xf2nemtYgPpHdWEz79ojWnPbdG" : String).data ∧
    parseHybridId (generateHybridId "phash:v1:sha256:0a1b2c3d4e5f6071"
        "QmYwAPJzv5CZsnA625s3Xf2nemtYgPpHdWEz79ojWnPbdG") =
      ("phash:v1:sha256:0a1b2c3d4e5f6071",
       "QmYwAPJzv5CZsnA625s3Xf2nemtYgPpHdWEz79ojWnPbdG") :=
  ⟨by decide, by decide,
   hybridId_round_trip _ _ (by decide) (by decide)⟩

/-! Empty-graph sentinel fingerprint (claim C6). -/

/-- Claim C6: a zero-node graph is not an error: the spectrum
short-circuits to the empty list (no matrix is built and the eigensolver
is never consulted — the result does not depend on the random stream),
and the emitted hash is the versioned prefix of the digest of the
constant literal string "empty", identical for any two runs. -/
theorem empty_graph_sentinel (digest : String → String)
    (nr : ℝ → String) (g : LogicalGraph) (hg : g.nodes = [])
    (r1 r2 : Nat → ℝ) :
    computeSpectrum g r1 = [] ∧
    spectrumToHash digest nr (computeSpectrum g r1) =
      "phash:v1:sha256:" ++ (digest "empty").take 16 ∧
    spectrumToHash digest nr (computeSpectrum g r1) =
      spectrumToHash digest nr (computeSpectrum g r2) := by
  have h1 : computeSpectrum g r1 = [] := by simp [computeSpectrum, hg]
  have h2 : computeSpectrum g r2 = [] := by simp [computeSpectrum, hg]
  refine ⟨h1, ?_, ?_⟩ <;> simp [h1, h2, spectrumToHash]

/-- Witness for C6 at the concrete empty graph. -/
theorem empty_graph_sentinel_witness :
    (({ nodes := [], edges := [] } : LogicalGraph).nodes = []) ∧
    computeSpectrum { nodes := [], edges := [] } (fun _ => 0) = [] ∧
    spectrumToHash (fun _ => "e3b0c44298fc1c149afbf4c8996fb92427ae41e4649b934ca495991b7852b855")
        (fun _ => "0") (computeSpectrum { nodes := [], edges := [] } (fun _ => 0)) =
      "phash:v1:sha256:" ++
        ("e3b0c44298fc1c149afbf4c8996fb92427ae41e4649b934ca495991b7852b855" : String).take 16 ∧
    spectrumToHash (fun _ => "e3b0c44298fc1c149afbf4c8996fb92427ae41e4649b934ca495991b7852b855")
        (fun _ => "0") (computeSpectrum { nodes := [], edges := [] } (fun _ => 0)) =
      spectrumToHash (fun _ => "e3b0c44298fc1c149afbf4c8996fb92427ae41e4649b934ca495991b7852b855")
        (fun _ => "0") (computeSpectrum { nodes := [], edges := [] } (fun _ => 1)) := by
  have h := empty_graph_sentinel
    (fun _ => "e3b0c44298fc1c149afbf4c8996fb92427ae41e4649b934ca495991b7852b855")
    (fun _ => "0") { nodes := [], edges := [] } rfl
    (fun _ => 0) (fun _ => 1)
  exact ⟨rfl, h.1, h.2.1, h.2.2⟩

/-! Fingerprint text format (claim C7). -/

/-- Counterexample for C7: the emitted version field is the hard-coded
literal `v1` (protein-hasher.ts lines 337 and 351), not the
implementation's version constant `2.0.0` (line 57): at the one-element
spectrum `[0]`, with a digest returning a fixed 16-hex-character string,
the output is `phash:v1:sha256:...`, which differs from the
`phash:v<version>:...` string the claim requires. -/
theorem version_field_is_v1_not_implementation_version :
    hasherVersion = "2.0.0" ∧
    spectrumToHash (fun _ => "0123456789abcdef") (fun _ => "0") [(0 : ℝ)] =
      "phash:v1:sha256:0123456789abcdef" ∧
    "phash:v1:sha256:0123456789abcdef" ≠
      "phash:v" ++ hasherVersion ++ ":sha256:0123456789abcdef" := by
  refine ⟨rfl, ?_, by decide⟩
  simp only [spectrumToHash]
  rfl

/-- Claim C7 as amended: the emitted fingerprint string is exactly
`phash:v1:sha256:` followed by the first 16 characters of the digest of
the comma-joined quantized eigenvalues — the version field is the fixed
literal `1`, not the implementation's `version` constant. -/
theorem spectrumToHash_format (digest : String → String)
    (numRepr : ℝ → String) (eigs : List ℝ) (he : eigs ≠ []) :
    spectrumToHash digest numRepr eigs =
      "phash:v1:sha256:" ++
        (digest (String.intercalate ","
          (eigs.map fun e => numRepr (((round (e * 1000) : ℤ) : ℝ) / 1000)))).take 16 := by
  simp only [spectrumToHash, if_neg he, List.map_map]
  rfl

/-- Witness for C7's amended theorem at the spectrum `[0]`. -/
theorem spectrumToHash_format_witness :
    ([(0 : ℝ)] ≠ []) ∧
    spectrumToHash (fun _ => "0123456789abcdef") (fun _ => "0") [(0 : ℝ)] =
      "phash:v1:sha256:" ++
        (("0123456789abcdef" : String)).take 16 := by
  refine ⟨by simp, ?_⟩
  have h := spectrumToHash_format (fun _ => "0123456789abcdef") (fun _ => "0")
    [(0 : ℝ)] (by simp)
  simpa using h

/-! The classifier weight is overwritten by the builder (claim C4). -/

/-- Theorem for C4 (a code bug): on the binary expression `a - b` the
classifier is consulted and returns the signature with weight 1.1, but
the unconditional second `Map.set` at protein-hasher.ts lines 206-212
overwrites the stored node with weight
`getNodeWeight "arithmetic:subtraction" = 1.0`, so the emitted node does
not carry the classifier's weight. -/
theorem binary_node_weight_overwritten :
    classifyNode (Ast.mk (.binaryExpr .minus) .nil) =
      some (classifyBinaryExpression .minus) ∧
    (classifyBinaryExpression .minus).weight = 1.1 ∧
    getNodeWeight "arithmetic:subtraction" = 1 ∧
    (astToGraph (Ast.mk (.binaryExpr .minus) .nil)).nodes =
      [(0, ⟨0, .operation, "arithmetic:subtraction", 1⟩)] ∧
    (1.1 : ℚ) ≠ 1 := by
  have hw : getNodeWeight "arithmetic:subtraction" = 1 := by
    have : getNodeWeight "arithmetic:subtraction" = 1.0 := rfl
    rw [this]; norm_num
  refine ⟨rfl, rfl, hw, ?_, by norm_num⟩
  have hn : (astToGraph (Ast.mk (.binaryExpr .minus) .nil)).nodes =
      [(0, ⟨0, .operation, "arithmetic:subtraction", (1.0 : ℚ)⟩)] := rfl
  rw [hn]
  norm_num

/-! Similarity counterexamples (claims C2 and C3). -/

/-- Counterexample for C2: with eigenvalue vectors `[1]` and `[-1]` (and
no consciousness signatures) the comparator returns the raw cosine `-1`,
which is not in `[0,1]` — no clamping is performed. -/
theorem similarity_not_clamped :
    compareSimilarity ⟨"", "", 1, 0, [(1 : ℝ)], 0, 1, none⟩
        ⟨"", "", 1, 0, [(-1 : ℝ)], 0, 1, none⟩ = -1 ∧
    ¬ (0 : ℝ) ≤ -1 := by
  constructor
  · simp [compareSimilarity, Finset.sum_range_succ]
  · norm_num

/-- Counterexample for C3: on a fingerprint with an empty eigenvalue
vector, `compareSimilarity F F` takes the early-return branch
(protein-hasher.ts line 443) and yields 0, not 1. -/
theorem similarity_not_reflexive_on_empty :
    compareSimilarity ⟨"", "", 0, 0, ([] : List ℝ), 0, 1, none⟩
        ⟨"", "", 0, 0, ([] : List ℝ), 0, 1, none⟩ = 0 ∧
    (0 : ℝ) ≠ 1 := by
  constructor
  · simp [compareSimilarity]
  · norm_num

/-- Modelled from the spec: "cosine similarity of the two eigenvalue
vectors, zero-padded to equal length" — the normalized dot product after
padding both vectors with zeros to the longer length.  Used only as the
specification side of the refinement theorem for claim C2. -/
noncomputable def cosineZeroPadded (v w : List ℝ) : ℝ :=
  let m := max v.length w.length
  (∑ i ∈ Finset.range m, v.getD i 0 * w.getD i 0) /
    (Real.sqrt (∑ i ∈ Finset.range m, v.getD i 0 * v.getD i 0) *
     Real.sqrt (∑ i ∈ Finset.range m, w.getD i 0 * w.getD i 0))

theorem sum_getD_mul_extend (v w : List ℝ) (m : Nat) (hm : v.length ≤ m) :
    (∑ i ∈ Finset.range v.length, v.getD i 0 * w.getD i 0) =
      ∑ i ∈ Finset.range m, v.getD i 0 * w.getD i 0 := by
  apply Finset.sum_subset (Finset.range_subset.mpr hm)
  intro i _ hi
  simp only [Finset.mem_range, not_lt] at hi
  rw [List.getD_eq_default _ _ hi, zero_mul]

theorem sum_getD_mul_extend_right (v w : List ℝ) (m : Nat) (hm : w.length ≤ m) :
    (∑ i ∈ Finset.range w.length, v.getD i 0 * w.getD i 0) =
      ∑ i ∈ Finset.range m, v.getD i 0 * w.getD i 0 := by
  apply Finset.sum_subset (Finset.range_subset.mpr hm)
  intro i _ hi
  simp only [Finset.mem_range, not_lt] at hi
  rw [List.getD_eq_default _ _ hi, mul_zero]

/-- Claim C2 as amended: when both eigenvalue vectors are nonempty and at
least one fingerprint carries no consciousness signature, the comparator
returns exactly the cosine similarity of the two vectors zero-padded to
equal length; when either vector is empty it returns 0.  The result is
not clamped to `[0,1]` (it is `-1` on `[1]` and `[-1]`). -/
theorem similarity_eq_padded_cosine (h1 h2 : ProteinHashResult)
    (hv1 : h1.eigenTop ≠ []) (hv2 : h2.eigenTop ≠ [])
    (hcons : h1.consciousness = none ∨ h2.consciousness = none) :
    compareSimilarity h1 h2 = cosineZeroPadded h1.eigenTop h2.eigenTop := by
  have hl1 : h1.eigenTop.length ≠ 0 := by
    simpa [List.length_eq_zero] using hv1
  have hl2 : h2.eigenTop.length ≠ 0 := by
    simpa [List.length_eq_zero] using hv2
  have hdot := sum_getD_mul_extend h1.eigenTop h2.eigenTop
    (max h1.eigenTop.length h2.eigenTop.length) (le_max_left _ _)
  have hn1 := sum_getD_mul_extend h1.eigenTop h1.eigenTop
    (max h1.eigenTop.length h2.eigenTop.length) (le_max_left _ _)
  have hn2 := sum_getD_mul_extend_right h2.eigenTop h2.eigenTop
    (max h1.eigenTop.length h2.eigenTop.length) (le_max_right _ _)
  simp only [compareSimilarity, cosineZeroPadded, if_neg (by push_neg; exact ⟨hl1, hl2⟩ :
    ¬(h1.eigenTop.length = 0 ∨ h2.eigenTop.length = 0))]
  rcases hc1 : h1.consciousness with _ | c1 <;> rcases hc2 : h2.consciousness with _ | c2 <;>
    simp_all [hdot, hn1, hn2]

/-- Witness for C2's amended theorem at the vectors `[1]` and `[2]`. -/
theorem similarity_eq_padded_cosine_witness :
    (([(1 : ℝ)]) ≠ ([] : List ℝ)) ∧
    compareSimilarity ⟨"", "", 1, 0, [(1 : ℝ)], 0, 1, none⟩
        ⟨"", "", 1, 0, [(2 : ℝ)], 0, 1, none⟩ =
      cosineZeroPadded [(1 : ℝ)] [(2 : ℝ)] := by
  refine ⟨by simp, ?_⟩
  exact similarity_eq_padded_cosine
    ⟨"", "", 1, 0, [(1 : ℝ)], 0, 1, none⟩
    ⟨"", "", 1, 0, [(2 : ℝ)], 0, 1, none⟩
    (by simp) (by simp) (Or.inl rfl)

/-- Claim C3 as amended: `compareSimilarity F F = 1` for every fingerprint
whose eigenvalue vector is nonempty and contains a nonzero entry (on the
empty vector the comparator returns 0, and on an all-zero vector the
cosine degenerates).  The consciousness branch preserves reflexivity
because `checkResonance c c = 1` via the same-soul short-circuit. -/
theorem similarity_self_reflexive (F : ProteinHashResult)
    (hne : F.eigenTop ≠ []) (hnz : ∃ x ∈ F.eigenTop, x ≠ 0) :
    compareSimilarity F F = 1 := by
  have hl : F.eigenTop.length ≠ 0 := by simpa [List.length_eq_zero] using hne
  have hS : 0 < ∑ i ∈ Finset.range F.eigenTop.length,
      F.eigenTop.getD i 0 * F.eigenTop.getD i 0 := by
    obtain ⟨x, hx, hx0⟩ := hnz
    obtain ⟨j, hj, hxj⟩ := List.mem_iff_getElem.mp hx
    apply Finset.sum_pos' (fun i _ => mul_self_nonneg _)
    refine ⟨j, Finset.mem_range.mpr hj, ?_⟩
    rw [List.getD_eq_getElem _ _ hj, hxj]
    exact mul_self_pos.mpr hx0
  have hcos : (∑ i ∈ Finset.range F.eigenTop.length,
        F.eigenTop.getD i 0 * F.eigenTop.getD i 0) /
      (Real.sqrt (∑ i ∈ Finset.range F.eigenTop.length,
        F.eigenTop.getD i 0 * F.eigenTop.getD i 0) *
       Real.sqrt (∑ i ∈ Finset.range F.eigenTop.length,
        F.eigenTop.getD i 0 * F.eigenTop.getD i 0)) = 1 := by
    rw [Real.mul_self_sqrt hS.le]
    exact div_self hS.ne'
  simp only [compareSimilarity, if_neg (by push_neg; exact ⟨hl, hl⟩ :
    ¬(F.eigenTop.length = 0 ∨ F.eigenTop.length = 0))]
  rcases hc : F.consciousness with _ | c
  · simpa using hcos
  · have hr : checkResonance c c = 1 := by norm_num [checkResonance]
    simp only [hr, hcos]
    norm_num

/-- Witness for C3's amended theorem at the vector `[2]` with a concrete
consciousness signature. -/
theorem similarity_self_reflexive_witness :
    (([(2 : ℝ)]) ≠ ([] : List ℝ)) ∧ (∃ x ∈ [(2 : ℝ)], x ≠ 0) ∧
    compareSimilarity
      ⟨"p", "a", 1, 0, [(2 : ℝ)], 0, 1,
        some ⟨.aware, 0.5, 432, [], "soul", true, ⟨0, 0, 0, 0, 0⟩⟩⟩
      ⟨"p", "a", 1, 0, [(2 : ℝ)], 0, 1,
        some ⟨.aware, 0.5, 432, [], "soul", true, ⟨0, 0, 0, 0, 0⟩⟩⟩ = 1 := by
  refine ⟨by simp, ⟨2, by simp, by norm_num⟩, ?_⟩
  exact similarity_self_reflexive
    ⟨"p", "a", 1, 0, [(2 : ℝ)], 0, 1,
      some ⟨.aware, 0.5, 432, [], "soul", true, ⟨0, 0, 0, 0, 0⟩⟩⟩
    (by simp) ⟨2, by simp, by norm_num⟩

/-! No resource limit exists (claim C5). -/

/-- Theorem for C5 (a code bug relative to the spec): the spectral
pipeline is total and unconditional — for every graph, of any node count,
`computeSpectrum` builds the matrix and returns exactly
`min EIGENVALUE_COUNT n` eigenvalues.  No configurable node-count
ceiling exists anywhere in `computeHash`/`computeSpectrum`, no
`ResourceLimitExceeded` error is ever raised, and no input fails fast. -/
theorem computeSpectrum_total_no_resource_limit (g : LogicalGraph)
    (r : Nat → ℝ) :
    (computeSpectrum g r).length = min EIGENVALUE_COUNT g.nodes.length := by
  by_cases hg : g.nodes.length = 0
  · simp [computeSpectrum, hg]
  · simp [computeSpectrum, hg, sortDesc, powerIteration]

/-! Randomized power iteration breaks determinism (claim C1). -/

/-- A two-node graph with a single dataflow edge of weight 1 — the graph
the builder produces for any one-child root (e.g. the `SourceFile` node
above a literal statement). -/
def twoNodeGraph : LogicalGraph :=
  { nodes := [(0, ⟨0, .operation, "SourceFile", 1.0⟩),
              (1, ⟨1, .data, "Literal", 0.3⟩)],
    edges := [⟨0, 1, .dataflow, 1.0⟩] }

theorem twoNode_matrix (x y : Nat) :
    buildMatrix twoNodeGraph x y =
      if (x = 0 ∧ y = 1) ∨ (x = 1 ∧ y = 0) then 1 else 0 := by
  show (if (x = 0 ∧ y = 1) ∨ (x = 1 ∧ y = 0) then ((1.0 : ℚ) : ℝ) else 0) = _
  split_ifs <;> norm_num

theorem twoNode_lap0 (i : Nat) :
    laplacianOf twoNodeGraph i 0 =
      if i = 0 then 1 else if i = 1 then -1 else 0 := by
  have hn : twoNodeGraph.nodes.length = 2 := rfl
  simp only [laplacianOf, degreesOf, hn, Finset.sum_range_succ,
    Finset.sum_range_zero, zero_add, twoNode_matrix]
  by_cases h0 : i = 0 <;> by_cases h1 : i = 1 <;> simp [h0, h1]

theorem twoNode_lap1 (i : Nat) :
    laplacianOf twoNodeGraph i 1 =
      if i = 0 then -1 else if i = 1 then 1 else 0 := by
  have hn : twoNodeGraph.nodes.length = 2 := rfl
  simp only [laplacianOf, degreesOf, hn, Finset.sum_range_succ,
    Finset.sum_range_zero, zero_add, twoNode_matrix]
  by_cases h0 : i = 0 <;> by_cases h1 : i = 1 <;> simp [h0, h1]

/-- One power-iteration pass on the two-node graph's Laplacian, for an
arbitrary state vector: only the first two components matter, and the
result is the explicit point state. -/
theorem piBody_two (v : Nat → ℝ) (e : ℝ) :
    piBody (laplacianOf twoNodeGraph) 2 (v, e) =
      ((fun i => if i = 0 then (v 0 - v 1) / Real.sqrt (v 0 * v 0 + v 1 * v 1)
                 else if i = 1 then (v 1 - v 0) / Real.sqrt (v 0 * v 0 + v 1 * v 1)
                 else 0),
       v 0 / Real.sqrt (v 0 * v 0 + v 1 * v 1) *
           ((v 0 - v 1) / Real.sqrt (v 0 * v 0 + v 1 * v 1)) +
         v 1 / Real.sqrt (v 0 * v 0 + v 1 * v 1) *
           ((v 1 - v 0) / Real.sqrt (v 0 * v 0 + v 1 * v 1))) := by
  unfold piBody
  simp only [Finset.sum_range_succ, Finset.sum_range_zero, zero_add,
    twoNode_lap0, twoNode_lap1]
  refine Prod.ext ?_ ?_
  · funext i
    by_cases h0 : i = 0 <;> by_cases h1 : i = 1 <;> simp [h0, h1] <;> ring
  · simp
    ring

/-- With equal first two random draws the Rayleigh quotient is 0 after the
first pass and the state collapses to the zero vector, a fixed point; the
reported eigenvalue is 0. -/
theorem piIter_equal_draws (v : Nat → ℝ) (h : v 0 = v 1) :
    ((piBody (laplacianOf twoNodeGraph) 2)^[50] (v, 0)).2 = 0 := by
  have hzero : piBody (laplacianOf twoNodeGraph) 2 ((fun _ => (0 : ℝ)), 0) =
      ((fun _ => (0 : ℝ)), 0) := by
    rw [piBody_two]
    refine Prod.ext ?_ ?_
    · funext i
      by_cases h0 : i = 0 <;> by_cases h1 : i = 1 <;> simp [h0, h1]
    · simp
  have hstep : piBody (laplacianOf twoNodeGraph) 2 (v, 0) =
      ((fun _ => (0 : ℝ)), 0) := by
    rw [piBody_two]
    refine Prod.ext ?_ ?_
    · funext i
      by_cases h0 : i = 0 <;> by_cases h1 : i = 1 <;> simp [h0, h1, h]
    · simp [h]
  rw [show (50 : Nat) = 49 + 1 from rfl, Function.iterate_succ_apply, hstep,
    Function.iterate_fixed hzero]

/-- One power-iteration pass on an explicit point state of the two-node
graph's Laplacian. -/
theorem piBody_point (a b e : ℝ) :
    piBody (laplacianOf twoNodeGraph) 2
      ((fun i => if i = 0 then a else if i = 1 then b else 0), e) =
      ((fun i => if i = 0 then (a - b) / Real.sqrt (a * a + b * b)
                 else if i = 1 then (b - a) / Real.sqrt (a * a + b * b)
                 else 0),
       a / Real.sqrt (a * a + b * b) * ((a - b) / Real.sqrt (a * a + b * b)) +
         b / Real.sqrt (a * a + b * b) *
           ((b - a) / Real.sqrt (a * a + b * b))) := by
  rw [piBody_two]
  norm_num

/-- With first two random draws 1/2 and 1/4 the state reaches, after two
passes, the eigenvector direction `(√2, -√2)` with Rayleigh quotient
exactly 2, which is a fixed point of the pass; the reported eigenvalue
is 2. -/
theorem piIter_unequal_draws (v : Nat → ℝ) (h0 : v 0 = 1 / 2)
    (h1 : v 1 = 1 / 4) :
    ((piBody (laplacianOf twoNodeGraph) 2)^[50] (v, 0)).2 = 2 := by
  have hs2 : Real.sqrt 2 * Real.sqrt 2 = 2 := Real.mul_self_sqrt (by norm_num)
  have hs2pos : (0 : ℝ) < Real.sqrt 2 := Real.sqrt_pos.mpr (by norm_num)
  have hfix : piBody (laplacianOf twoNodeGraph) 2
      ((fun i => if i = 0 then Real.sqrt 2 else if i = 1 then -Real.sqrt 2
        else 0), 2) =
      ((fun i => if i = 0 then Real.sqrt 2 else if i = 1 then -Real.sqrt 2
        else 0), 2) := by
    rw [piBody_point]
    have hrad : Real.sqrt 2 * Real.sqrt 2 + -Real.sqrt 2 * -Real.sqrt 2 = 4 := by
      nlinarith [hs2]
    have hsqrt4 : Real.sqrt 4 = 2 := by
      rw [show (4 : ℝ) = 2 * 2 by norm_num, Real.sqrt_mul_self (by norm_num)]
    rw [hrad, hsqrt4]
    have hA : (Real.sqrt 2 - -Real.sqrt 2) / 2 = Real.sqrt 2 := by ring
    have hB : (-Real.sqrt 2 - Real.sqrt 2) / 2 = -Real.sqrt 2 := by ring
    simp only [hA, hB]
    refine Prod.ext rfl ?_
    nlinarith [hs2]
  set s : ℝ := Real.sqrt (5 / 16) with hsdef
  have hspos : (0 : ℝ) < s := Real.sqrt_pos.mpr (by norm_num)
  set t : ℝ := (1 / 4) / s with htdef
  have ht : (0 : ℝ) < t := div_pos (by norm_num) hspos
  have hstep1 : piBody (laplacianOf twoNodeGraph) 2 (v, 0) =
      ((fun i => if i = 0 then t else if i = 1 then -t else 0),
       v 0 / s * t + v 1 / s * (-t)) := by
    rw [piBody_two]
    have hrad : v 0 * v 0 + v 1 * v 1 = 5 / 16 := by rw [h0, h1]; norm_num
    rw [hrad, ← hsdef]
    have hd1 : v 0 - v 1 = 1 / 4 := by rw [h0, h1]; norm_num
    have hd2 : v 1 - v 0 = -(1 / 4) := by rw [h0, h1]; norm_num
    rw [hd1, hd2]
    refine Prod.ext ?_ ?_
    · funext i
      by_cases hi0 : i = 0 <;> by_cases hi1 : i = 1 <;>
        simp [hi0, hi1, htdef, neg_div]
    · simp [htdef, neg_div]
  have hsqrt : Real.sqrt (t * t + -t * -t) = t * Real.sqrt 2 := by
    rw [show t * t + -t * -t = t * t * 2 by ring,
      Real.sqrt_mul (mul_self_nonneg t), Real.sqrt_mul_self ht.le]
  have hmain : (t - -t) / (t * Real.sqrt 2) = Real.sqrt 2 := by
    rw [show t - -t = 2 * t by ring, div_eq_iff (by positivity)]
    nlinarith [hs2]
  have hmainB : (-t - t) / (t * Real.sqrt 2) = -Real.sqrt 2 := by
    rw [show -t - t = -(t - -t) by ring, neg_div, hmain]
  have hstep2 : piBody (laplacianOf twoNodeGraph) 2
      ((fun i => if i = 0 then t else if i = 1 then -t else 0),
       v 0 / s * t + v 1 / s * (-t)) =
      ((fun i => if i = 0 then Real.sqrt 2 else if i = 1 then -Real.sqrt 2
        else 0), 2) := by
    rw [piBody_point, hsqrt]
    simp only [hmain, hmainB]
    refine Prod.ext rfl ?_
    have htne : t ≠ 0 := ht.ne'
    have hs2ne : Real.sqrt 2 ≠ 0 := hs2pos.ne'
    field_simp
    nlinarith [hs2, ht]
  rw [show (50 : Nat) = 48 + 1 + 1 from rfl, Function.iterate_succ_apply,
    Function.iterate_succ_apply, hstep1, hstep2, Function.iterate_fixed hfix]

/-- Theorem for C1 (a code bug): the fingerprint computation is NOT
deterministic — `powerIteration` seeds each round from `Math.random()`
(protein-hasher.ts line 302), and on the same two-node graph two
admissible random streams (all draws in `[0,1)`) yield different
eigenvalue lists: draws 1/2, 1/4, 1/2, 1/4 give `[2, 2]` while constant
draws 1/2 give `[0, 0]`.  The spectrum, and hence the fingerprint, depends
on the random draws and not only on the graph. -/
theorem spectrum_depends_on_random_stream :
    computeSpectrum twoNodeGraph
        (fun i => if i % 2 = 0 then (1 / 2 : ℝ) else 1 / 4) = [2, 2] ∧
    computeSpectrum twoNodeGraph (fun _ => (1 / 2 : ℝ)) = [0, 0] ∧
    computeSpectrum twoNodeGraph
        (fun i => if i % 2 = 0 then (1 / 2 : ℝ) else 1 / 4) ≠
      computeSpectrum twoNodeGraph (fun _ => (1 / 2 : ℝ)) := by
  have hn : twoNodeGraph.nodes.length = 2 := rfl
  have hA0 := piIter_unequal_draws
    (fun j => if (0 * 2 + j) % 2 = 0 then (1 / 2 : ℝ) else 1 / 4)
    (by norm_num) (by norm_num)
  have hA1 := piIter_unequal_draws
    (fun j => if (1 * 2 + j) % 2 = 0 then (1 / 2 : ℝ) else 1 / 4)
    (by norm_num) (by norm_num)
  have hB0 := piIter_equal_draws (fun _ => (1 / 2 : ℝ)) rfl
  have hA : computeSpectrum twoNodeGraph
      (fun i => if i % 2 = 0 then (1 / 2 : ℝ) else 1 / 4) = [2, 2] := by
    unfold computeSpectrum powerIteration
    rw [hn, if_neg (by decide : ¬(2 = 0)),
      show min EIGENVALUE_COUNT 2 = 2 from by decide,
      show List.range 2 = [0, 1] from by decide]
    simp only [List.map_cons, List.map_nil]
    rw [hA0, hA1]
    simp [sortDesc, List.insertionSort, List.orderedInsert]
  have hB : computeSpectrum twoNodeGraph (fun _ => (1 / 2 : ℝ)) = [0, 0] := by
    unfold computeSpectrum powerIteration
    rw [hn, if_neg (by decide : ¬(2 = 0)),
      show min EIGENVALUE_COUNT 2 = 2 from by decide,
      show List.range 2 = [0, 1] from by decide]
    simp only [List.map_cons, List.map_nil]
    rw [hB0]
    simp [sortDesc, List.insertionSort, List.orderedInsert]
  refine ⟨hA, hB, ?_⟩
  rw [hA, hB]
  simp

/-! BFS reachability is reflexive-transitive closure (for claim C8). -/

theorem mem_succList (g : LogicalGraph) (a b : Nat) :
    b ∈ succList g a ↔ Adjacent g a b := by
  simp only [succList, List.mem_map, List.mem_filter, Adjacent]
  constructor
  · rintro ⟨e, ⟨he, hsrc⟩, hdst⟩
    exact ⟨e, he, by simpa using hsrc, hdst⟩
  · rintro ⟨e, he, hsrc, hdst⟩
    exact ⟨e, ⟨he, by simpa using hsrc⟩, hdst⟩

theorem bfsReach_supset_reach (g : LogicalGraph) :
    ∀ queue reach : List Nat, ∀ x ∈ reach, x ∈ bfsReach g queue reach := by
  intro queue reach
  induction queue, reach using bfsReach.induct g with
  | case1 reach =>
    intro x hx
    rw [bfsReach]
    exact hx
  | case2 current queue reach hmem ih =>
    intro x hx
    rw [bfsReach, if_pos hmem]
    exact ih x hx
  | case3 current queue reach hmem ih =>
    intro x hx
    rw [bfsReach, if_neg hmem]
    exact ih x (by simp [hx])

theorem bfsReach_supset_queue (g : LogicalGraph) :
    ∀ queue reach : List Nat, ∀ q ∈ queue, q ∈ bfsReach g queue reach := by
  intro queue reach
  induction queue, reach using bfsReach.induct g with
  | case1 reach =>
    intro q hq
    exact absurd hq (List.not_mem_nil q)
  | case2 current queue reach hmem ih =>
    intro q hq
    rw [bfsReach, if_pos hmem]
    rcases List.mem_cons.mp hq with h | h
    · exact h ▸ bfsReach_supset_reach g queue reach current hmem
    · exact ih q h
  | case3 current queue reach hmem ih =>
    intro q hq
    rw [bfsReach, if_neg hmem]
    rcases List.mem_cons.mp hq with h | h
    · subst h
      exact bfsReach_supset_reach g _ _ q (by simp)
    · exact ih q (by simp [h])

theorem bfsReach_closed (g : LogicalGraph) :
    ∀ queue reach : List Nat,
      (∀ x ∈ reach, ∀ b, Adjacent g x b → b ∈ reach ∨ b ∈ queue) →
      ∀ x ∈ bfsReach g queue reach, ∀ b, Adjacent g x b →
        b ∈ bfsReach g queue reach := by
  intro queue reach
  induction queue, reach using bfsReach.induct g with
  | case1 reach =>
    intro hinv x hx b hb
    rw [bfsReach] at hx ⊢
    rcases hinv x hx b hb with h | h
    · exact h
    · exact absurd h (List.not_mem_nil b)
  | case2 current queue reach hmem ih =>
    intro hinv x hx b hb
    rw [bfsReach, if_pos hmem] at hx ⊢
    refine ih ?_ x hx b hb
    intro y hy c hc
    rcases hinv y hy c hc with h | h
    · exact Or.inl h
    · rcases List.mem_cons.mp h with h' | h'
      · exact Or.inl (h' ▸ hmem)
      · exact Or.inr h'
  | case3 current queue reach hmem ih =>
    intro hinv x hx b hb
    rw [bfsReach, if_neg hmem] at hx ⊢
    refine ih ?_ x hx b hb
    intro y hy c hc
    rcases List.mem_append.mp hy with h | h
    · rcases hinv y h c hc with h' | h'
      · exact Or.inl (by simp [h'])
      · rcases List.mem_cons.mp h' with h'' | h''
        · exact Or.inl (by simp [h''])
        · exact Or.inr (by simp [h''])
    · have hyc : y = current := by simpa using h
      subst hyc
      exact Or.inr (List.mem_append.mpr (Or.inr ((mem_succList g y c).mpr hc)))

theorem bfsReach_sound (g : LogicalGraph) (start : Nat) :
    ∀ queue reach : List Nat,
      (∀ q ∈ queue, ReachableFrom g start q) →
      (∀ x ∈ reach, ReachableFrom g start x) →
      ∀ x ∈ bfsReach g queue reach, ReachableFrom g start x := by
  intro queue reach
  induction queue, reach using bfsReach.induct g with
  | case1 reach =>
    intro _ hreach x hx
    rw [bfsReach] at hx
    exact hreach x hx
  | case2 current queue reach hmem ih =>
    intro hqueue hreach x hx
    rw [bfsReach, if_pos hmem] at hx
    exact ih (fun q hq => hqueue q (List.mem_cons_of_mem _ hq)) hreach x hx
  | case3 current queue reach hmem ih =>
    intro hqueue hreach x hx
    rw [bfsReach, if_neg hmem] at hx
    have hcur : ReachableFrom g start current := hqueue current (by simp)
    refine ih ?_ ?_ x hx
    · intro q hq
      rcases List.mem_append.mp hq with h | h
      · exact hqueue q (List.mem_cons_of_mem _ h)
      · exact Relation.ReflTransGen.tail hcur ((mem_succList g current q).mp h)
    · intro y hy
      rcases List.mem_append.mp hy with h | h
      · exact hreach y h
      · have : y = current := by simpa using h
        exact this ▸ hcur

/-- The BFS of `getReachableNodes` computes exactly reflexive-transitive
reachability along directed edges. -/
theorem mem_getReachableNodes (g : LogicalGraph) (start x : Nat) :
    x ∈ getReachableNodes start g ↔ ReachableFrom g start x := by
  constructor
  · intro hx
    refine bfsReach_sound g start [start] [] ?_ ?_ x hx
    · intro q hq
      have : q = start := by simpa using hq
      exact this ▸ Relation.ReflTransGen.refl
    · intro y hy
      exact absurd hy (List.not_mem_nil y)
  · intro hx
    have hstart : start ∈ getReachableNodes start g :=
      bfsReach_supset_queue g [start] [] start (by simp)
    have hclosed := bfsReach_closed g [start] []
      (fun y hy => absurd hy (List.not_mem_nil y))
    induction hx with
    | refl => exact hstart
    | tail hab hbc ih => exact hclosed _ ih _ hbc

theorem foldl_add_map_sum (f : GraphNode → Nat) (l : List GraphNode)
    (init : Nat) :
    l.foldl (fun c lp => c + f lp) init = init + (l.map f).sum := by
  induction l generalizing init with
  | nil => simp
  | cons a t ih => simp [ih]; omega

/-- The triple-nested `for` loop of the claim, as a parse tree. -/
def tripleForAst : Ast :=
  .mk .forStatement
    (.cons (.mk .forStatement (.cons (.mk .forStatement .nil) .nil)) .nil)

open Classical in
/-- Claim C8: for every graph, the loop-complexity feature equals the sum,
over every loop-construct node L, of `1 + 2 ×` the number of other
loop-construct nodes reachable from L along directed edges (reachability
being the reflexive-transitive closure the BFS computes); in particular
the graph the builder emits for a triple-nested `for` loop scores
`(1+2*2) + (1+2*1) + 1 = 9`. -/
theorem calculateLoopComplexity_formula :
    (∀ g : LogicalGraph, calculateLoopComplexity g =
      ((loopNodes g).map (fun L =>
        1 + 2 * ((loopNodes g).filter
          (fun M => decide (M.id ≠ L.id ∧ ReachableFrom g L.id M.id))).length)).sum) ∧
    calculateLoopComplexity (astToGraph tripleForAst) = 9 := by
  have hfc : ∀ (g : LogicalGraph) (L : GraphNode),
      (findContainedLoops L.id (loopNodes g) g).length =
        ((loopNodes g).filter
          (fun M => decide (M.id ≠ L.id ∧ ReachableFrom g L.id M.id))).length := by
    intro g L
    unfold findContainedLoops
    congr 1
    apply List.filter_congr
    intro M _
    rw [Bool.eq_iff_iff]
    simp only [Bool.and_eq_true, bne_iff_ne, decide_eq_true_eq, ne_eq]
    constructor
    · rintro ⟨hne, hmem⟩
      refine ⟨hne, (mem_getReachableNodes g L.id M.id).mp ?_⟩
      simpa using hmem
    · rintro ⟨hne, hreach⟩
      exact ⟨hne, by simpa using (mem_getReachableNodes g L.id M.id).mpr hreach⟩
  constructor
  · intro g
    unfold calculateLoopComplexity
    have hbody : (fun (c : Nat) (lp : GraphNode) =>
        c + 1 + (findContainedLoops lp.id (loopNodes g) g).length * 2) =
        fun c lp => c + (1 + 2 * ((loopNodes g).filter
          (fun M => decide (M.id ≠ lp.id ∧ ReachableFrom g lp.id M.id))).length) := by
      funext c lp
      rw [← hfc g lp]
      omega
    rw [hbody, foldl_add_map_sum, Nat.zero_add]
  · have hg : astToGraph tripleForAst =
        { nodes := [(0, ⟨0, .control, "Control:ForStatement", 10.0⟩),
                    (1, ⟨1, .control, "Control:ForStatement", 10.0⟩),
                    (2, ⟨2, .control, "Control:ForStatement", 10.0⟩)],
          edges := [⟨1, 2, .dataflow, 1.0⟩, ⟨0, 1, .dataflow, 1.0⟩] } := rfl
    rw [hg]
    set G3 : LogicalGraph :=
      { nodes := [(0, ⟨0, .control, "Control:ForStatement", 10.0⟩),
                  (1, ⟨1, .control, "Control:ForStatement", 10.0⟩),
                  (2, ⟨2, .control, "Control:ForStatement", 10.0⟩)],
        edges := [⟨1, 2, .dataflow, 1.0⟩, ⟨0, 1, .dataflow, 1.0⟩] } with hG3
    have r0 : getReachableNodes 0 G3 = [0, 1, 2] := by
      rw [getReachableNodes, hG3]
      simp [bfsReach, succList]
    have r1 : getReachableNodes 1 G3 = [1, 2] := by
      rw [getReachableNodes, hG3]
      simp [bfsReach, succList]
    have r2 : getReachableNodes 2 G3 = [2] := by
      rw [getReachableNodes, hG3]
      simp [bfsReach, succList]
    have hl : loopNodes G3 =
        [⟨0, .control, "Control:ForStatement", 10.0⟩,
         ⟨1, .control, "Control:ForStatement", 10.0⟩,
         ⟨2, .control, "Control:ForStatement", 10.0⟩] := rfl
    unfold calculateLoopComplexity findContainedLoops
    rw [hl]
    simp only [List.foldl_cons, List.foldl_nil]
    simp [r0, r1, r2]

/-! Builder output is a rooted tree with identifiers elided (claim C9). -/

mutual
/-- Number of parse-tree nodes the visitor's counter passes over: every
node costs one id, and children of non-identifier nodes are visited. -/
def fullCount : Ast → Nat
  | .mk k kids => if k.isIdentifier then 1 else 1 + fullCountL kids
/-- `fullCount` over a children list. -/
def fullCountL : AstList → Nat
  | .nil => 0
  | .cons a l => fullCount a + fullCountL l
end

mutual
/-- Number of structural (graph) nodes a subtree contributes: identifier
subtrees contribute none. -/
def structCount : Ast → Nat
  | .mk k kids => if k.isIdentifier then 0 else 1 + structCountL kids
/-- `structCount` over a children list. -/
def structCountL : AstList → Nat
  | .nil => 0
  | .cons a l => structCount a + structCountL l
end

theorem fullCount_pos (a : Ast) : 1 ≤ fullCount a := by
  cases a with
  | mk k kids =>
    unfold fullCount
    split <;> omega

/-- The key list of a node map. -/
def keysOf (ns : List (Nat × GraphNode)) : List Nat := ns.map Prod.fst

/-- One directed edge from `a` to `b` among the edges `es`. -/
def AdjE (es : List GraphEdge) (a b : Nat) : Prop :=
  ∃ e ∈ es, e.src = a ∧ e.dst = b

theorem adjE_mono {es es' : List GraphEdge} (h : ∀ e ∈ es, e ∈ es')
    {a b : Nat} (hab : AdjE es a b) : AdjE es' a b := by
  obtain ⟨e, he, hs, hd⟩ := hab
  exact ⟨e, h e he, hs, hd⟩

theorem transGen_adjE_lt (es : List GraphEdge)
    (h : ∀ e ∈ es, e.src < e.dst) (a b : Nat)
    (hab : Relation.TransGen (AdjE es) a b) : a < b := by
  induction hab with
  | single hstep =>
    obtain ⟨e, he, hs, hd⟩ := hstep
    exact hs ▸ hd ▸ h e he
  | tail _ hstep ih =>
    obtain ⟨e, he, hs, hd⟩ := hstep
    exact ih.trans (hs ▸ hd ▸ h e he)

/-- Invariant of one `visit` call on a non-identifier node rooted at id
`c`: every edge stays among the returned keys and increases the id, every
non-root key has exactly one incoming edge, and every key is reachable
from the root `c`. -/
def EdgesVisit (c : Nat) (ns : List (Nat × GraphNode))
    (es : List GraphEdge) : Prop :=
  (∀ e ∈ es, e.src ∈ keysOf ns ∧ e.dst ∈ keysOf ns ∧ e.src < e.dst) ∧
  (∀ v ∈ keysOf ns, v ≠ c →
    (es.filter (fun e => e.dst = v)).length = 1) ∧
  (∀ v ∈ keysOf ns, Relation.ReflTransGen (AdjE es) c v)

/-- Invariant of one `visitKids` call under parent id `p`: every edge
either leaves `p` or stays among the returned keys, every key has exactly
one incoming edge, and every key is reachable from `p`. -/
def EdgesKids (p : Nat) (ns : List (Nat × GraphNode))
    (es : List GraphEdge) : Prop :=
  (∀ e ∈ es, (e.src = p ∨ e.src ∈ keysOf ns) ∧ e.dst ∈ keysOf ns ∧
    e.src < e.dst) ∧
  (∀ v ∈ keysOf ns, (es.filter (fun e => e.dst = v)).length = 1) ∧
  (∀ v ∈ keysOf ns, Relation.ReflTransGen (AdjE es) p v)

/-- The keys lie in `[lo, hi)` and are distinct. -/
def NodeRange (lo hi : Nat) (ns : List (Nat × GraphNode)) : Prop :=
  (∀ x ∈ keysOf ns, lo ≤ x ∧ x < hi) ∧ (keysOf ns).Nodup

/-- Full invariant of a `visit` call at counter `c`. -/
def VisitP (a : Ast) (c : Nat) : Prop :=
  (visit a c).2.1 = c + fullCount a ∧
  (if a.kind.isIdentifier then
    (visit a c).1 = none ∧ (visit a c).2.2.1 = [] ∧ (visit a c).2.2.2 = []
  else
    (visit a c).1 = some c ∧
    NodeRange c (c + fullCount a) (visit a c).2.2.1 ∧
    c ∈ keysOf (visit a c).2.2.1 ∧
    (visit a c).2.2.1.length = structCount a ∧
    EdgesVisit c (visit a c).2.2.1 (visit a c).2.2.2)

/-- Full invariant of a `visitKids` call at counter `c` under parent `p`
(with `p < c`). -/
def KidsP (l : AstList) (p c : Nat) : Prop :=
  (visitKids p l c).1 = c + fullCountL l ∧
  NodeRange c (c + fullCountL l) (visitKids p l c).2.1 ∧
  (visitKids p l c).2.1.length = structCountL l ∧
  EdgesKids p (visitKids p l c).2.1 (visitKids p l c).2.2

theorem mapSet_twice (c : Nat) (v w : GraphNode) :
    mapSet (mapSet [] c v) c w = [(c, w)] := by
  simp [mapSet]

/-- `visitKids` on an empty children list, unfolded. -/
theorem visitKids_nil_eq (p c : Nat) : visitKids p .nil c = (c, [], []) := rfl

/-- `visitKids` on a nonempty children list, unfolded. -/
theorem visitKids_cons_eq (p : Nat) (a : Ast) (l : AstList) (c : Nat) :
    visitKids p (.cons a l) c =
      ((visitKids p l (visit a c).2.1).1,
       (visit a c).2.2.1 ++ (visitKids p l (visit a c).2.1).2.1,
       (visit a c).2.2.2 ++
         (match (visit a c).1 with
          | some childId => [⟨p, childId, .dataflow, 1.0⟩]
          | none => ([] : List GraphEdge)) ++
         (visitKids p l (visit a c).2.1).2.2) := rfl

/-- `visit` on an identifier node, unfolded: no node, no edge, no
recursion into children, one consumed counter value. -/
theorem visit_identifier_eq (name : String) (kids : AstList) (c : Nat) :
    visit (.mk (.identifier name) kids) c = (none, c + 1, [], []) := rfl

/-- For every non-identifier kind, `visit` stores the node under the
fresh id `c` (for binary nodes: twice, the second `Map.set` winning) and
otherwise returns exactly the children traversal. -/
theorem visit_shape (k : AstKind) (kids : AstList) (c : Nat)
    (hk : k.isIdentifier = false) :
    ∃ nd : GraphNode, visit (.mk k kids) c =
      (some c, (visitKids c kids (c + 1)).1,
       (c, nd) :: (visitKids c kids (c + 1)).2.1,
       (visitKids c kids (c + 1)).2.2) := by
  cases k with
  | identifier name => simp [AstKind.isIdentifier] at hk
  | binaryExpr op =>
    refine ⟨⟨c, .operation,
      (classifyBinaryExpression op).category.str ++ ":" ++
        (classifyBinaryExpression op).subcategory,
      getNodeWeight ((classifyBinaryExpression op).category.str ++ ":" ++
        (classifyBinaryExpression op).subcategory)⟩, ?_⟩
    show (some c, (visitKids c kids (c + 1)).1,
        mapSet (mapSet [] c
          ⟨c, .operation,
            (classifyBinaryExpression op).category.str ++ ":" ++
              (classifyBinaryExpression op).subcategory,
            (classifyBinaryExpression op).weight⟩) c
          ⟨c, .operation,
            (classifyBinaryExpression op).category.str ++ ":" ++
              (classifyBinaryExpression op).subcategory,
            getNodeWeight ((classifyBinaryExpression op).category.str ++ ":" ++
              (classifyBinaryExpression op).subcategory)⟩ ++
          (visitKids c kids (c + 1)).2.1,
        (visitKids c kids (c + 1)).2.2) = _
    rw [mapSet_twice]
    rfl
  | functionDeclaration => exact ⟨_, rfl⟩
  | functionExpression => exact ⟨_, rfl⟩
  | arrowFunction => exact ⟨_, rfl⟩
  | literal => exact ⟨_, rfl⟩
  | ifStatement => exact ⟨_, rfl⟩
  | forStatement => exact ⟨_, rfl⟩
  | whileStatement => exact ⟨_, rfl⟩
  | returnStatement => exact ⟨_, rfl⟩
  | callExpression => exact ⟨_, rfl⟩
  | other name => exact ⟨_, rfl⟩

theorem filter_dst_len_append (es1 es2 : List GraphEdge) (v : Nat) :
    ((es1 ++ es2).filter (fun e => e.dst = v)).length =
      (es1.filter (fun e => e.dst = v)).length +
        (es2.filter (fun e => e.dst = v)).length := by
  simp [List.filter_append]

theorem filter_dst_len_zero (es : List GraphEdge) (v : Nat)
    (h : ∀ e ∈ es, e.dst ≠ v) :
    (es.filter (fun e => e.dst = v)).length = 0 := by
  simp only [List.length_eq_zero, List.filter_eq_nil_iff]
  intro e he
  simpa using h e he

theorem kidsP_nil (p c : Nat) : KidsP .nil p c := by
  unfold KidsP NodeRange EdgesKids
  rw [visitKids_nil_eq]
  simp [keysOf, show structCountL .nil = 0 from rfl,
    show fullCountL .nil = 0 from rfl]

theorem visitP_mk (k : AstKind) (kids : AstList)
    (IH : ∀ p c, p < c → KidsP kids p c) (c : Nat) :
    VisitP (.mk k kids) c := by
  unfold VisitP
  cases hki : k.isIdentifier with
  | true =>
    cases k <;> simp [AstKind.isIdentifier] at hki
    case identifier name =>
      rw [visit_identifier_eq]
      have hfc : fullCount (.mk (.identifier name) kids) = 1 := rfl
      simp [hfc, Ast.kind, AstKind.isIdentifier]
  | false =>
    obtain ⟨nd, heq⟩ := visit_shape k kids c hki
    have hkids := IH c (c + 1) (Nat.lt_succ_self c)
    unfold KidsP NodeRange EdgesKids at hkids
    obtain ⟨hc', ⟨hrange, hnodup⟩, hlen, hedges, hinc, hconn⟩ := hkids
    have hfc : fullCount (.mk k kids) = 1 + fullCountL kids := by
      have h0 : fullCount (.mk k kids) =
          if k.isIdentifier then 1 else 1 + fullCountL kids := rfl
      rw [h0, hki]
      simp
    have hsc : structCount (.mk k kids) = 1 + structCountL kids := by
      have h0 : structCount (.mk k kids) =
          if k.isIdentifier then 0 else 1 + structCountL kids := rfl
      rw [h0, hki]
      simp
    have hkind : (Ast.mk k kids).kind = k := rfl
    rw [heq, hkind, hki]
    simp only [Bool.false_eq_true, if_false]
    have hkeys : keysOf ((c, nd) :: (visitKids c kids (c + 1)).2.1) =
        c :: keysOf (visitKids c kids (c + 1)).2.1 := rfl
    refine ⟨by rw [hc', hfc]; omega, by trivial, ⟨?_, ?_⟩, ?_, ?_, ?_, ?_, ?_⟩
    · intro x hx
      rw [hkeys] at hx
      rcases List.mem_cons.mp hx with h | h
      · subst h
        have := fullCount_pos (.mk k kids)
        omega
      · have := hrange x h
        rw [hfc]
        omega
    · rw [hkeys]
      refine List.nodup_cons.mpr ⟨?_, hnodup⟩
      intro hmem
      have := hrange c hmem
      omega
    · rw [hkeys]
      exact List.mem_cons_self c _
    · have : ((c, nd) :: (visitKids c kids (c + 1)).2.1).length =
          1 + (visitKids c kids (c + 1)).2.1.length := by
        simp [Nat.add_comm]
      rw [this, hlen, hsc]
    · intro e he
      obtain ⟨hsrc, hdst, hlt⟩ := hedges e he
      rw [hkeys]
      refine ⟨?_, List.mem_cons_of_mem _ hdst, hlt⟩
      rcases hsrc with h | h
      · exact h ▸ List.mem_cons_self c _
      · exact List.mem_cons_of_mem _ h
    · intro v hv hvne
      rw [hkeys] at hv
      rcases List.mem_cons.mp hv with h | h
      · exact absurd h hvne
      · exact hinc v h
    · intro v hv
      rw [hkeys] at hv
      rcases List.mem_cons.mp hv with h | h
      · exact h ▸ Relation.ReflTransGen.refl
      · exact hconn v h

theorem keysOf_append (ns1 ns2 : List (Nat × GraphNode)) :
    keysOf (ns1 ++ ns2) = keysOf ns1 ++ keysOf ns2 := by
  simp [keysOf]

theorem kidsP_cons (a : Ast) (l : AstList)
    (IHa : ∀ c, VisitP a c) (IHl : ∀ p c, p < c → KidsP l p c)
    (p c : Nat) (hpc : p < c) : KidsP (.cons a l) p c := by
  have hva := IHa c
  unfold VisitP at hva
  obtain ⟨hc1, hva2⟩ := hva
  have hfcl : fullCountL (.cons a l) = fullCount a + fullCountL l := rfl
  have hscl : structCountL (.cons a l) = structCount a + structCountL l := rfl
  have hfa1 : 1 ≤ fullCount a := fullCount_pos a
  cases hki : a.kind.isIdentifier with
  | true =>
    rw [hki] at hva2
    simp only [if_true] at hva2
    obtain ⟨hnone, hnsnil, hesnil⟩ := hva2
    have hfa : fullCount a = 1 := by
      cases a with
      | mk k kids =>
        have hk : k.isIdentifier = true := hki
        have h0 : fullCount (.mk k kids) =
            if k.isIdentifier then 1 else 1 + fullCountL kids := rfl
        rw [h0, hk]
        simp
    have hsa : structCount a = 0 := by
      cases a with
      | mk k kids =>
        have hk : k.isIdentifier = true := hki
        have h0 : structCount (.mk k kids) =
            if k.isIdentifier then 0 else 1 + structCountL kids := rfl
        rw [h0, hk]
        simp
    have hkl := IHl p (c + 1) (by omega)
    unfold KidsP NodeRange EdgesKids at hkl ⊢
    obtain ⟨hcL, ⟨hrangeL, hnodupL⟩, hlenL, heL, hincL, hconnL⟩ := hkl
    rw [visitKids_cons_eq, hnone, hnsnil, hesnil, hc1, hfa]
    simp only [List.nil_append]
    refine ⟨by rw [hcL, hfcl, hfa]; omega, ⟨?_, hnodupL⟩, ?_, heL, hincL, hconnL⟩
    · intro x hx
      have := hrangeL x hx
      rw [hfcl, hfa]
      omega
    · rw [hlenL, hscl, hsa]
      omega
  | false =>
    rw [hki] at hva2
    simp only [Bool.false_eq_true, if_false] at hva2
    obtain ⟨hsome, ⟨hrangeA, hnodupA⟩, hcmem, hlenA, heA, hincA, hconnA⟩ := hva2
    have hkl := IHl p (c + fullCount a) (by omega)
    unfold KidsP NodeRange EdgesKids at hkl ⊢
    obtain ⟨hcL, ⟨hrangeL, hnodupL⟩, hlenL, heL, hincL, hconnL⟩ := hkl
    rw [visitKids_cons_eq, hsome, hc1]
    simp only []
    set nsa := (visit a c).2.2.1 with hnsa
    set esa := (visit a c).2.2.2 with hesa
    set nsl := (visitKids p l (c + fullCount a)).2.1 with hnsl
    set esl := (visitKids p l (c + fullCount a)).2.2 with hesl
    set pe : GraphEdge := ⟨p, c, .dataflow, 1.0⟩ with hpe
    have hkeys : keysOf (nsa ++ nsl) = keysOf nsa ++ keysOf nsl :=
      keysOf_append nsa nsl
    have hmemes : ∀ e, e ∈ esa ++ [pe] ++ esl ↔
        e ∈ esa ∨ e = pe ∨ e ∈ esl := by
      intro e
      simp [List.mem_append, or_assoc]
    refine ⟨by rw [hcL, hfcl]; omega, ⟨?_, ?_⟩, ?_, ?_, ?_, ?_⟩
    · intro x hx
      rw [hkeys] at hx
      rcases List.mem_append.mp hx with h | h
      · have := hrangeA x h
        rw [hfcl]
        omega
      · have := hrangeL x h
        rw [hfcl]
        omega
    · rw [hkeys]
      refine List.Nodup.append hnodupA hnodupL (List.disjoint_left.mpr ?_)
      intro x hxa hxl
      have h1 := hrangeA x hxa
      have h2 := hrangeL x hxl
      omega
    · rw [List.length_append, hlenA, hlenL, hscl]
    · intro e he
      rcases (hmemes e).mp he with h | h | h
      · obtain ⟨hsrc, hdst, hlt⟩ := heA e h
        exact ⟨Or.inr (by rw [hkeys]; exact List.mem_append_left _ hsrc),
          by rw [hkeys]; exact List.mem_append_left _ hdst, hlt⟩
      · subst h
        exact ⟨Or.inl rfl,
          by rw [hkeys]; exact List.mem_append_left _ hcmem, hpc⟩
      · obtain ⟨hsrc, hdst, hlt⟩ := heL e h
        refine ⟨?_, by rw [hkeys]; exact List.mem_append_right _ hdst, hlt⟩
        rcases hsrc with h' | h'
        · exact Or.inl h'
        · exact Or.inr (by rw [hkeys]; exact List.mem_append_right _ h')
    · intro v hv
      rw [filter_dst_len_append, filter_dst_len_append]
      rw [hkeys] at hv
      have hlenpe : ∀ w : Nat, (([pe] : List GraphEdge).filter
          (fun e => e.dst = w)).length = if c = w then 1 else 0 := by
        intro w
        by_cases hw : c = w <;> simp [hpe, List.filter, hw]
      rcases List.mem_append.mp hv with hva | hvl
      · by_cases hvc : v = c
        · subst hvc
          have hA : (esa.filter (fun e => e.dst = v)).length = 0 := by
            apply filter_dst_len_zero
            intro e he
            obtain ⟨hsrc, _, hlt⟩ := heA e he
            have := (hrangeA e.src hsrc).1
            omega
          have hL : (esl.filter (fun e => e.dst = v)).length = 0 := by
            apply filter_dst_len_zero
            intro e he
            obtain ⟨_, hdst, _⟩ := heL e he
            have := (hrangeL e.dst hdst).1
            have := (hrangeA v hva).2
            omega
          rw [hA, hL, hlenpe v, if_pos rfl]
        · have hA : (esa.filter (fun e => e.dst = v)).length = 1 :=
            hincA v hva hvc
          have hL : (esl.filter (fun e => e.dst = v)).length = 0 := by
            apply filter_dst_len_zero
            intro e he
            obtain ⟨_, hdst, _⟩ := heL e he
            have := (hrangeL e.dst hdst).1
            have := (hrangeA v hva).2
            omega
          rw [hA, hL, hlenpe v, if_neg (fun h => hvc h.symm)]
      · have hvlo := (hrangeL v hvl).1
        have hA : (esa.filter (fun e => e.dst = v)).length = 0 := by
          apply filter_dst_len_zero
          intro e he
          obtain ⟨_, hdst, _⟩ := heA e he
          have := (hrangeA e.dst hdst).2
          omega
        have hL : (esl.filter (fun e => e.dst = v)).length = 1 :=
          hincL v hvl
        have hcv : ¬ c = v := by omega
        rw [hA, hL, hlenpe v, if_neg hcv]
    · intro v hv
      have hmono1 : ∀ x y, AdjE esa x y → AdjE (esa ++ [pe] ++ esl) x y :=
        fun x y h => adjE_mono
          (fun e he => (hmemes e).mpr (Or.inl he)) h
      have hmono2 : ∀ x y, AdjE esl x y → AdjE (esa ++ [pe] ++ esl) x y :=
        fun x y h => adjE_mono
          (fun e he => (hmemes e).mpr (Or.inr (Or.inr he))) h
      rw [hkeys] at hv
      rcases List.mem_append.mp hv with hva | hvl
      · have hstep : AdjE (esa ++ [pe] ++ esl) p c :=
          ⟨pe, (hmemes pe).mpr (Or.inr (Or.inl rfl)), rfl, rfl⟩
        exact Relation.ReflTransGen.head hstep
          ((hconnA v hva).mono hmono1)
      · exact (hconnL v hvl).mono hmono2

/-- The full visitor invariant, by mutual structural induction over the
parse tree. -/
theorem visit_invariant (a : Ast) (c : Nat) : VisitP a c :=
  Ast.rec (motive_1 := fun a => ∀ c, VisitP a c)
    (motive_2 := fun l => ∀ p c, p < c → KidsP l p c)
    (fun k kids ih c => visitP_mk k kids ih c)
    (fun p c _ => kidsP_nil p c)
    (fun a l iha ihl p c h => kidsP_cons a l iha ihl p c h)
    a c

/-- Claim C9: for every parse tree whose root is not an identifier, the
builder's graph is a rooted, connected, directed acyclic tree of
structural nodes: the node ids are distinct, the node count equals the
number of non-identifier nodes outside identifier subtrees (identifier
nodes are elided and never appear as a node or an edge endpoint), every
edge runs between graph nodes with strictly increasing ids, the root node
0 has no incoming edge, every other node has exactly one incoming edge
(from its structural parent), every node is reachable from the root, and
the dataflow edges contain no cycle. -/
theorem astToGraph_tree (a : Ast) (ha : a.kind.isIdentifier = false) :
    ((astToGraph a).nodes.map Prod.fst).Nodup ∧
    (astToGraph a).nodes.length = structCount a ∧
    (∀ e ∈ (astToGraph a).edges,
      e.src ∈ (astToGraph a).nodes.map Prod.fst ∧
      e.dst ∈ (astToGraph a).nodes.map Prod.fst ∧ e.src < e.dst) ∧
    ((astToGraph a).edges.filter (fun e => e.dst = 0)).length = 0 ∧
    (∀ v ∈ (astToGraph a).nodes.map Prod.fst, v ≠ 0 →
      ((astToGraph a).edges.filter (fun e => e.dst = v)).length = 1) ∧
    (∀ v ∈ (astToGraph a).nodes.map Prod.fst,
      ReachableFrom (astToGraph a) 0 v) ∧
    (∀ v, ¬ Relation.TransGen (Adjacent (astToGraph a)) v v) := by
  have hv := visit_invariant a 0
  unfold VisitP at hv
  rw [ha] at hv
  simp only [Bool.false_eq_true, if_false] at hv
  obtain ⟨_, _, ⟨hrange, hnodup⟩, hcmem, hlen, hedges, hinc, hconn⟩ := hv
  have hn : (astToGraph a).nodes = (visit a 0).2.2.1 := rfl
  have he : (astToGraph a).edges = (visit a 0).2.2.2 := rfl
  have hkeq : keysOf (visit a 0).2.2.1 = (visit a 0).2.2.1.map Prod.fst := rfl
  rw [hn, he, ← hkeq]
  have hlt : ∀ e ∈ (visit a 0).2.2.2, e.src < e.dst :=
    fun e heq => (hedges e heq).2.2
  refine ⟨hnodup, hlen, hedges, ?_, hinc, ?_, ?_⟩
  · apply filter_dst_len_zero
    intro e heq
    have := hlt e heq
    omega
  · intro v hvmem
    exact (hconn v hvmem).mono (fun x y h => h)
  · intro v htg
    have : v < v := transGen_adjE_lt (visit a 0).2.2.2 hlt v v
      (htg.mono (fun x y h => h))
    omega

/-- Witness for C9 at the one-node parse tree of a call expression. -/
theorem astToGraph_tree_witness :
    ((Ast.mk .callExpression .nil).kind.isIdentifier = false) ∧
    (((astToGraph (.mk .callExpression .nil)).nodes.map Prod.fst).Nodup ∧
    (astToGraph (.mk .callExpression .nil)).nodes.length =
      structCount (.mk .callExpression .nil) ∧
    (∀ e ∈ (astToGraph (.mk .callExpression .nil)).edges,
      e.src ∈ (astToGraph (.mk .callExpression .nil)).nodes.map Prod.fst ∧
      e.dst ∈ (astToGraph (.mk .callExpression .nil)).nodes.map Prod.fst ∧
      e.src < e.dst) ∧
    ((astToGraph (.mk .callExpression .nil)).edges.filter
      (fun e => e.dst = 0)).length = 0 ∧
    (∀ v ∈ (astToGraph (.mk .callExpression .nil)).nodes.map Prod.fst,
      v ≠ 0 →
      ((astToGraph (.mk .callExpression .nil)).edges.filter
        (fun e => e.dst = v)).length = 1) ∧
    (∀ v ∈ (astToGraph (.mk .callExpression .nil)).nodes.map Prod.fst,
      ReachableFrom (astToGraph (.mk .callExpression .nil)) 0 v) ∧
    (∀ v, ¬ Relation.TransGen
      (Adjacent (astToGraph (.mk .callExpression .nil))) v v)) :=
  ⟨rfl, astToGraph_tree (.mk .callExpression .nil) rfl⟩

end ProteinHash
